import Mathlib

/-!
Shallow embedding of the dependency-diff / changelog core of
`containerd-release-tool` (`util.go`).

Go strings are modelled as Lean `String`s, manipulated through their
character lists (`String.data`); for the ASCII manifest and log data that
this tool processes, Go byte indices coincide with character indices.
`bufio.Scanner` line splitting, `strings.Fields`, `strings.FieldsFunc`,
`strings.Index`, `strings.TrimSpace` and the one regular expression used
by the parsers are embedded as executable functions below.  A Go slice
index-out-of-range panic is modelled as the `none` branch of an `Option`
result; a `fmt.Errorf`-style fatal error as the `Except.error` branch.
-/

namespace ReleaseTool

/-- Model of Go `unicode.IsSpace` restricted to the ASCII range (the only
characters the manifests and logs contain). -/
def goIsSpace (c : Char) : Bool :=
  c = ' ' || c = '\t' || c = '\n' || c = '\x0b' || c = '\x0c' || c = '\r'

/-- Trim `goIsSpace` characters from both ends of a character list
(model of `strings.TrimSpace`). -/
def trimChars (l : List Char) : List Char :=
  ((l.dropWhile goIsSpace).reverse.dropWhile goIsSpace).reverse

/-- Model of `strings.TrimSpace`. -/
def trimSpace (s : String) : String :=
  (trimChars s.data).asString

/-- Accumulator for `goFieldsChars`: `cur` holds the characters of the
current field in reverse. -/
def goFieldsAux (p : Char → Bool) (cur : List Char) : List Char → List (List Char)
  | [] => if cur.isEmpty then [] else [cur.reverse]
  | c :: rest =>
    if p c then
      if cur.isEmpty then goFieldsAux p [] rest
      else cur.reverse :: goFieldsAux p [] rest
    else goFieldsAux p (c :: cur) rest

/-- Split a character list at separators satisfying `p`, dropping empty
fields (model of `strings.Fields` / `strings.FieldsFunc`). -/
def goFieldsChars (p : Char → Bool) (l : List Char) : List (List Char) :=
  goFieldsAux p [] l

/-- Model of `strings.Fields`: whitespace-separated fields of a string. -/
def goFields (s : String) : List String :=
  (goFieldsChars goIsSpace s.data).map List.asString

/-- Model of `strings.FieldsFunc(cov, c == '-')` as used by
`getCommitOrVersion`. -/
def dashFields (s : String) : List String :=
  (goFieldsChars (fun c => c = '-') s.data).map List.asString

/-- First index at which `needle` occurs as a contiguous sublist of the
haystack (model of `strings.Index`; `none` models the result -1). -/
def goIndexOf (needle : List Char) : List Char → Option Nat
  | [] => if needle.isEmpty then some 0 else none
  | c :: rest =>
    if needle.isPrefixOf (c :: rest) then some 0
    else (goIndexOf needle rest).map (· + 1)

/-- Drop a single trailing carriage return (part of `bufio.ScanLines`). -/
def dropCR (l : List Char) : List Char :=
  if l.getLast? = some '\r' then l.dropLast else l

/-- Accumulator for `linesOf`: `cur` holds the current line in reverse. -/
def linesAux (cur : List Char) : List Char → List (List Char)
  | [] => [dropCR cur.reverse]
  | c :: rest =>
    if c = '\n' then
      dropCR cur.reverse :: (if rest.isEmpty then [] else linesAux [] rest)
    else linesAux (c :: cur) rest

/-- Model of `bufio.Scanner` with `bufio.ScanLines`: the sequence of lines
the scanner yields for the given input (no line for empty input, no empty
final line after a trailing newline, a trailing `\r` stripped per line). -/
def linesOf (s : String) : List String :=
  if s.data.isEmpty then [] else (linesAux [] s.data).map List.asString

/-- A dependency record (`dependency` struct in the source). -/
structure dependency where
  Name : String
  Commit : String
  CloneURL : String
  Previous : String := ""
deriving DecidableEq, Repr

/-- A changelog entry (`change` struct in the source). -/
structure change where
  Commit : String
  Description : String
deriving DecidableEq, Repr

/-- A rename table entry (`projectRename` struct in the source). -/
structure projectRename where
  Old : String
  New : String
deriving DecidableEq, Repr

/-- A contributor key (`contributor` struct in the source). -/
structure contributor where
  name : String
  email : String
deriving DecidableEq, Repr

/-- Embedding of `sanitizeLine(line, commentDelim)`. -/
def sanitizeLine (line commentDelim : String) : String :=
  let ln := trimSpace line
  if ln = "" then ""
  else
    match goIndexOf commentDelim.data ln.data with
    | some 0 => ""
    | some cidx => trimSpace (ln.data.take cidx).asString
    | none => trimSpace ln

/-- Embedding of `getCommitOrVersion(cov)`: split the version on dashes;
with 1 or 2 dash-fields keep the version, cut from the first occurrence of
`+incompatible` when it sits at a positive index; with 3 dash-fields take
the third (the commit hash); otherwise return the empty string, which the
caller turns into a fatal error. -/
def getCommitOrVersion (cov : String) : String :=
  let df := dashFields cov
  if df.length = 1 ∨ df.length = 2 then
    match goIndexOf "+incompatible".data cov.data with
    | some incpIdx => if 0 < incpIdx then (cov.data.take incpIdx).asString else cov
    | none => cov
  else if df.length = 3 then df[2]!
  else ""

/-- Is this character a lowercase hexadecimal digit (the class
`[0-9a-f]` of the vendor.conf regular expression)? -/
def isHexLower (c : Char) : Bool :=
  ('0' ≤ c && c ≤ '9') || ('a' ≤ c && c ≤ 'f')

/-- Does a run of 40 lowercase-hex characters start at the head of the
list? -/
def hexRunStarts (l : List Char) : Bool :=
  (l.take 40).length = 40 && (l.take 40).all isHexLower

/-- Embedding of `regexp.Match` with the unanchored pattern
`[0-9a-f]{40}`: does the string contain 40 consecutive lowercase-hex
characters anywhere? -/
def hasHexRun40 : List Char → Bool
  | [] => false
  | c :: rest => hexRunStarts (c :: rest) || hasHexRun40 rest

/-- Embedding of the body of `parseVendorConfDependencies`, one scanner
line at a time. -/
def parseVendorConfLines : List String → Except String (List dependency)
  | [] => .ok []
  | l :: rest =>
    let ln := sanitizeLine l "#"
    if ln = "" then parseVendorConfLines rest
    else
      match goFields ln with
      | [p0, p1] =>
        let commitOrVersion :=
          if hasHexRun40 p1.data then (p1.data.take 12).asString else p1
        (parseVendorConfLines rest).map
          (⟨p0, commitOrVersion, "git://" ++ p0, ""⟩ :: ·)
      | [p0, p1, p2] =>
        let commitOrVersion :=
          if hasHexRun40 p1.data then (p1.data.take 12).asString else p1
        (parseVendorConfLines rest).map
          (⟨p0, commitOrVersion, p2, ""⟩ :: ·)
      | _ => .error ("invalid config format: " ++ ln)

/-- Embedding of `parseVendorConfDependencies` on the scanner lines of the
manifest text. -/
def parseVendorConfDependencies (lines : List String) : Except String (List dependency) :=
  parseVendorConfLines lines

/-- Embedding of the scan loop of `parseGoModDependencies`.  The Boolean
records whether the `require (` marker has been seen. -/
def parseGoModLines (foundRequire : Bool) : List String → Except String (List dependency)
  | [] => .ok []
  | l :: rest =>
    let ln := sanitizeLine l "//"
    if ln = "" then parseGoModLines foundRequire rest
    else
      match goFields ln with
      | [p0, p1] =>
        if !foundRequire then
          if p0 = "require" ∧ p1 = "(" then parseGoModLines true rest
          else parseGoModLines foundRequire rest
        else
          let commitOrVersion := getCommitOrVersion p1
          if commitOrVersion = "" then
            .error ("invalid go.mod file, poorly formatted version in requires section " ++ p1)
          else
            (parseGoModLines foundRequire rest).map
              (⟨p0, commitOrVersion, "git://" ++ p0, ""⟩ :: ·)
      | [p0] =>
        if p0 = ")" then .ok []
        else .error ("invalid config format: " ++ ln)
      | _ => .error ("invalid config format: " ++ ln)

/-- Embedding of `parseGoModDependencies` on the scanner lines of the
manifest text. -/
def parseGoModDependencies (lines : List String) : Except String (List dependency) :=
  parseGoModLines false lines

/-- Embedding of `parseDependencies(commit)`.  The two `fileFromRev`
lookups are external (they shell out to git), so they are passed in as
their results: either the scanner lines of the file at the revision or the
lookup error. -/
def parseDependencies (vendorConfFile goModFile : Except String (List String)) :
    Except String (List dependency) :=
  match vendorConfFile with
  | .ok rd => parseVendorConfDependencies rd
  | .error err =>
    match goModFile with
    | .ok rd => parseGoModDependencies rd
    | .error err2 =>
      .error ("finding current dep file failed. vendor.conf error: " ++ err ++
        ", go.mod error: " ++ err2)

/-- Embedding of `parseChangelog`.  The Go code indexes `fields[0]`
unconditionally; on a line with zero fields that indexing panics, which is
modelled by the `none` branch. -/
def parseChangelogLines : List String → Option (List change)
  | [] => some []
  | l :: rest =>
    match goFields l with
    | [] => none
    | f0 :: fs =>
      (parseChangelogLines rest).map (⟨f0, String.intercalate " " fs⟩ :: ·)

/-- Embedding of `parseChangelog` on raw log bytes. -/
def parseChangelog (changelog : String) : Option (List change) :=
  parseChangelogLines (linesOf changelog)

/-- Model of the Go map write loop in `toDepMap`: a name-keyed lookup
over a dependency list, last write wins on duplicate names. -/
def toDepMap (deps : List dependency) : String → Option dependency :=
  fun name => deps.foldl (fun acc d => if d.Name = name then some d else acc) none

/-- The key set of `toDepMap deps` listed in a definite order.  Go map
iteration order is unspecified; this determinization fixes one order so
that `updatedDeps` below is a function, and claims about it are stated up
to set membership only. -/
def mapNames (deps : List dependency) : List String :=
  (deps.map dependency.Name).dedup

/-- Embedding of `updatedDeps(previous, deps)`: for each entry of the
current map, keep it verbatim when its name is new, keep it with
`Previous` stamped to the old commit when the commit changed, and drop it
when unchanged. -/
def updatedDeps (previous deps : List dependency) : List dependency :=
  (mapNames deps).filterMap fun name =>
    match toDepMap deps name with
    | none => none
    | some c =>
      match toDepMap previous name with
      | none => some c
      | some d => if d.Commit ≠ c.Commit then some { c with Previous := d.Commit } else none

/-- Model of the `renameMap` built by `renameDependencies`: inverse lookup
from old name to (shortname, new name).  The Go map `renames` is modelled
as an association list; iterating it writes `renameMap[rename.Old]`, last
write wins. -/
def buildRenameMap (renames : List (String × projectRename)) : String → Option (String × String) :=
  fun old => renames.foldl
    (fun acc e => if e.2.Old = old then some (e.1, e.2.New) else acc) none

/-- Embedding of `renameDependencies(deps, renames)`.  The Go function
mutates `deps` in place; the embedding returns the updated list. -/
def renameDependencies (deps : List dependency) (renames : List (String × projectRename)) :
    List dependency :=
  if renames.isEmpty then deps
  else deps.map fun d =>
    match buildRenameMap renames d.Name with
    | some updated => { d with Name := updated.2 }
    | none => d

/-- Go `<` on strings: bytewise lexicographic comparison (on valid UTF-8
this coincides with the character-wise comparison embedded here). -/
def goStrLt : List Char → List Char → Bool
  | [], [] => false
  | [], _ :: _ => true
  | _ :: _, [] => false
  | x :: xs, y :: ys => if x < y then true else if y < x then false else goStrLt xs ys

/-- The `contribstat` record built inside `orderContributors`. -/
structure contribstat where
  name : String
  email : String
  count : Nat
deriving DecidableEq, Repr

/-- The `less` closure passed to `sort.Slice` in `orderContributors`:
higher count first, ties broken by ascending name. -/
def contribLess (a b : contribstat) : Bool :=
  if a.count = b.count then goStrLt a.name.data b.name.data
  else decide (b.count < a.count)

/-- Insert an element into a list sorted by the Boolean relation. -/
def insertLe {α : Type} (le : α → α → Bool) (a : α) : List α → List α
  | [] => [a]
  | b :: l => if le a b then a :: b :: l else b :: insertLe le a l

/-- Insertion sort by a Boolean relation; this determinizes `sort.Slice`,
whose only guarantee is that the result is a permutation of the input
ordered so that no later element is `less` than an earlier one. -/
def sortLe {α : Type} (le : α → α → Bool) : List α → List α
  | [] => []
  | a :: l => insertLe le a (sortLe le l)

/-- Embedding of `orderContributors`.  The Go tally map is modelled as an
association list of its entries (one per contributor key); map iteration
order is immaterial up to the sort. -/
def orderContributors (contributors : List (contributor × Nat)) : List String :=
  let all := contributors.map fun e => contribstat.mk e.1.name e.1.email e.2
  (sortLe (fun a b => !contribLess b a) all).map contribstat.name

/-- The characters of the literal part of the regular expression
`^Merge pull request #[0-9]+` compiled by `githubPRLink`. -/
def prHeadChars : List Char := "Merge pull request #".data

/-- Model of matching the anchored regular expression
`^Merge pull request #[0-9]+` against a description: on success, returns
the matched text (literal head plus the maximal digit run) and the
remainder of the description. -/
def matchPRHead (s : List Char) : Option (List Char × List Char) :=
  if s.take 20 = prHeadChars then
    let after := s.drop 20
    let digits := after.takeWhile Char.isDigit
    if digits.isEmpty then none
    else some (prHeadChars ++ digits, after.dropWhile Char.isDigit)
  else none

/-- Embedding of the description rewriter returned by
`githubPRLink(repo)`: `regexp.ReplaceAllStringFunc` replaces the single
possible match `m` (the pattern is anchored at the start) by
`fmt.Sprintf("%s [#%s](%s)", m[:idx], pr, link)` where `idx` is the index
of `#` in `m` and `pr` the digits after it; an unmatched description is
returned unchanged. -/
def githubPRLink (repo : String) (c : change) : String :=
  match matchPRHead c.Description.data with
  | none => c.Description
  | some (m, rest) =>
    match goIndexOf ['#'] m with
    | none => c.Description
    | some idx =>
      let pr := (m.drop (idx + 1)).asString
      let link := "https://github.com/" ++ repo ++ "/pull/" ++ pr
      (m.take idx).asString ++ " [#" ++ pr ++ "](" ++ link ++ ")" ++ rest.asString

/-! ### Last-write-wins lookup lemmas

Both `toDepMap` and `buildRenameMap` are folds of the shape
`foldl (fun acc x => if key x = k then some (v x) else acc) none`,
modelling a Go map populated in a loop.  The lemmas below characterise
such folds. -/

section LWW

variable {α β : Type} (key : α → String) (v : α → β) (k : String)

/-- The generic last-write-wins fold. -/
def lww (l : List α) : Option β :=
  l.foldl (fun acc x => if key x = k then some (v x) else acc) none

theorem lww_foldl_acc (l : List α) :
    ∀ acc : Option β,
      l.foldl (fun a x => if key x = k then some (v x) else a) acc =
        match lww key v k l with
        | some b => some b
        | none => acc := by
  induction l with
  | nil => intro acc; simp [lww]
  | cons e l ih =>
    intro acc
    show l.foldl _ (if key e = k then some (v e) else acc) = _
    rw [ih]
    show _ = match l.foldl _ (if key e = k then some (v e) else none) with
      | some b => some b
      | none => acc
    rw [ih (if key e = k then some (v e) else none)]
    cases h : lww key v k l with
    | some b => rfl
    | none =>
      by_cases hk : key e = k <;> simp [hk]

theorem lww_cons (e : α) (l : List α) :
    lww key v k (e :: l) =
      match lww key v k l with
      | some b => some b
      | none => if key e = k then some (v e) else none := by
  show l.foldl _ (if key e = k then some (v e) else none) = _
  rw [lww_foldl_acc]

theorem lww_eq_none_iff (l : List α) :
    lww key v k l = none ↔ ∀ x ∈ l, key x ≠ k := by
  induction l with
  | nil => simp [lww]
  | cons e l ih =>
    rw [lww_cons]
    cases h : lww key v k l with
    | some b =>
      simp only []
      constructor
      · intro hc; exact absurd hc (by simp)
      · intro hall
        have : ∀ x ∈ l, key x ≠ k := fun x hx => hall x (List.mem_cons_of_mem _ hx)
        rw [ih.mpr this] at h; exact absurd h (by simp)
    | none =>
      have hl : ∀ x ∈ l, key x ≠ k := ih.mp h
      by_cases hk : key e = k
      · simp [hk]
      · simp only [if_neg hk]
        constructor
        · intro _ x hx
          rcases List.mem_cons.mp hx with rfl | hx2
          · exact hk
          · exact hl x hx2
        · intro _; trivial

theorem lww_eq_some (l : List α) (b : β) :
    lww key v k l = some b → ∃ x ∈ l, key x = k ∧ b = v x := by
  induction l with
  | nil => intro h; simp [lww] at h
  | cons e l ih =>
    rw [lww_cons]
    cases h : lww key v k l with
    | some c =>
      intro hs
      obtain rfl : c = b := by simpa using hs
      obtain ⟨x, hx, hk, hv⟩ := ih h
      exact ⟨x, List.mem_cons_of_mem _ hx, hk, hv⟩
    | none =>
      by_cases hk : key e = k
      · intro hs
        obtain rfl : v e = b := by simpa [hk] using hs
        exact ⟨e, List.mem_cons_self _ _, hk, rfl⟩
      · intro hs; simp [hk] at hs

theorem lww_eq_some_of_unique (l : List α) (x : α)
    (hmem : x ∈ l) (hkey : key x = k)
    (huniq : ∀ y ∈ l, key y = k → y = x) :
    lww key v k l = some (v x) := by
  induction l with
  | nil => simp at hmem
  | cons e l ih =>
    rw [lww_cons]
    cases h : lww key v k l with
    | some c =>
      obtain ⟨y, hy, hyk, rfl⟩ := lww_eq_some key v k l c h
      have : y = x := huniq y (List.mem_cons_of_mem _ hy) hyk
      subst this; rfl
    | none =>
      have hnone := (lww_eq_none_iff key v k l).mp h
      rcases List.mem_cons.mp hmem with rfl | hx2
      · simp [hkey]
      · exact absurd hkey (hnone x hx2)

end LWW

theorem toDepMap_eq_lww (deps : List dependency) (name : String) :
    toDepMap deps name = lww dependency.Name id name deps := rfl

theorem buildRenameMap_eq_lww (renames : List (String × projectRename)) (old : String) :
    buildRenameMap renames old =
      lww (fun e => e.2.Old) (fun e => (e.1, e.2.New)) old renames := rfl

theorem toDepMap_eq_none_iff (deps : List dependency) (name : String) :
    toDepMap deps name = none ↔ ∀ d ∈ deps, d.Name ≠ name :=
  lww_eq_none_iff _ _ _ _

theorem toDepMap_eq_some_mem (deps : List dependency) (name : String) (d : dependency) :
    toDepMap deps name = some d → d ∈ deps ∧ d.Name = name := by
  intro h
  obtain ⟨x, hx, hk, hv⟩ := lww_eq_some dependency.Name id name deps d h
  subst hv; exact ⟨hx, hk⟩

theorem toDepMap_nodup_eq_some (deps : List dependency) (d : dependency)
    (hnd : (deps.map dependency.Name).Nodup) (hmem : d ∈ deps) :
    toDepMap deps d.Name = some d := by
  refine lww_eq_some_of_unique dependency.Name id d.Name deps d hmem rfl ?_
  intro y hy hyk
  by_contra hne
  have := List.inj_on_of_nodup_map hnd hy hmem hyk
  exact hne this

theorem mem_mapNames (deps : List dependency) (name : String) :
    name ∈ mapNames deps ↔ ∃ c ∈ deps, c.Name = name := by
  simp [mapNames, List.mem_dedup]

/-- Claim C5 (confirmed): for previous/current dependency lists with
unique names, `updatedDeps` returns, up to set membership, exactly the
current dependencies whose name is new (verbatim) and those whose commit
changed (with `Previous` stamped to the old commit); unchanged
dependencies are excluded.  The spec example instantiates this at
previous `[{A,v1}]`, current `[{A,v2},{B,v1}]`. -/
theorem updatedDeps_characterization (previous deps : List dependency)
    (hp : (previous.map dependency.Name).Nodup)
    (hc : (deps.map dependency.Name).Nodup) (d : dependency) :
    d ∈ updatedDeps previous deps ↔
      ∃ c ∈ deps,
        ((∀ p ∈ previous, p.Name ≠ c.Name) ∧ d = c) ∨
        (∃ p ∈ previous, p.Name = c.Name ∧ p.Commit ≠ c.Commit ∧
          d = { c with Previous := p.Commit }) := by
  unfold updatedDeps
  rw [List.mem_filterMap]
  constructor
  · rintro ⟨name, hname, hf⟩
    obtain ⟨c, hcmem, hcname⟩ := (mem_mapNames deps name).mp hname
    have hdm : toDepMap deps name = some c := by
      subst hcname; exact toDepMap_nodup_eq_some deps c hc hcmem
    rw [hdm] at hf
    dsimp only at hf
    cases hpm : toDepMap previous name with
    | none =>
      rw [hpm] at hf
      dsimp only at hf
      have hcd : c = d := Option.some.inj hf
      subst hcd
      refine ⟨c, hcmem, Or.inl ⟨?_, rfl⟩⟩
      intro p hpmem
      rw [hcname]
      exact (toDepMap_eq_none_iff previous name).mp hpm p hpmem
    | some p =>
      rw [hpm] at hf
      dsimp only at hf
      by_cases hne : p.Commit ≠ c.Commit
      · rw [if_pos hne] at hf
        have hcd : { c with Previous := p.Commit } = d := Option.some.inj hf
        subst hcd
        obtain ⟨hpmem, hpname⟩ := toDepMap_eq_some_mem previous name p hpm
        exact ⟨c, hcmem, Or.inr ⟨p, hpmem, by rw [hpname, hcname], hne, rfl⟩⟩
      · rw [if_neg hne] at hf
        exact absurd hf (by simp)
  · rintro ⟨c, hcmem, hcase⟩
    refine ⟨c.Name, (mem_mapNames deps c.Name).mpr ⟨c, hcmem, rfl⟩, ?_⟩
    have hdm : toDepMap deps c.Name = some c := toDepMap_nodup_eq_some deps c hc hcmem
    rw [hdm]
    dsimp only
    rcases hcase with ⟨hnone, rfl⟩ | ⟨p, hpmem, hpname, hne, rfl⟩
    · have hn : toDepMap previous d.Name = none :=
        (toDepMap_eq_none_iff previous d.Name).mpr fun p hp2 => hnone p hp2
      rw [hn]
    · have hps : toDepMap previous p.Name = some p :=
        toDepMap_nodup_eq_some previous p hp hpmem
      rw [hpname] at hps
      rw [hps]
      dsimp only
      rw [if_pos hne]

/-- Witness for C5 at the spec example: previous `[{A,v1}]`, current
`[{A,v2},{B,v1}]` give exactly the updated `A` (with Previous v1) and the
new `B`. -/
theorem updatedDeps_characterization_witness :
    (⟨"A", "v2", "git://A", "v1"⟩ : dependency) ∈
        updatedDeps [⟨"A", "v1", "git://A", ""⟩]
          [⟨"A", "v2", "git://A", ""⟩, ⟨"B", "v1", "git://B", ""⟩] ∧
    (⟨"B", "v1", "git://B", ""⟩ : dependency) ∈
        updatedDeps [⟨"A", "v1", "git://A", ""⟩]
          [⟨"A", "v2", "git://A", ""⟩, ⟨"B", "v1", "git://B", ""⟩] ∧
    updatedDeps [⟨"A", "v1", "git://A", ""⟩]
        [⟨"A", "v2", "git://A", ""⟩, ⟨"B", "v1", "git://B", ""⟩] =
      [⟨"A", "v2", "git://A", "v1"⟩, ⟨"B", "v1", "git://B", ""⟩] := by
  refine ⟨?_, ?_, by decide⟩
  · exact (updatedDeps_characterization _ _ (by decide) (by decide) _).mpr
      ⟨⟨"A", "v2", "git://A", ""⟩, by decide, Or.inr
        ⟨⟨"A", "v1", "git://A", ""⟩, by decide, rfl, by decide, rfl⟩⟩
  · exact (updatedDeps_characterization _ _ (by decide) (by decide) _).mpr
      ⟨⟨"B", "v1", "git://B", ""⟩, by decide, Or.inl ⟨by decide, rfl⟩⟩

/-- Claim C6 (confirmed): diffing any dependency list against itself
yields the empty update list, duplicate names (resolved last-write-wins by
the name-keyed lookup) included. -/
theorem updatedDeps_self (X : List dependency) : updatedDeps X X = [] := by
  unfold updatedDeps
  rw [List.filterMap_eq_nil_iff]
  intro name _
  cases h : toDepMap X name with
  | none => dsimp only
  | some c =>
    dsimp only
    have hcc : ¬ c.Commit ≠ c.Commit := fun hne => hne rfl
    rw [if_neg hcc]

/-- Claim C9 (confirmed): the dependency loader uses the vendor.conf parse
whenever the vendor.conf lookup succeeds, falls back to the go.mod parse
exactly when the vendor.conf lookup fails and the go.mod lookup succeeds,
and surfaces a combined error naming both lookup failures exactly when
both lookups fail; lookup errors are surfaced in no other way. -/
theorem parseDependencies_fallback :
    (∀ (rd : List String) (g : Except String (List String)),
      parseDependencies (.ok rd) g = parseVendorConfDependencies rd) ∧
    (∀ (err : String) (rd : List String),
      parseDependencies (.error err) (.ok rd) = parseGoModDependencies rd) ∧
    (∀ err err2 : String,
      parseDependencies (.error err) (.error err2) =
        .error ("finding current dep file failed. vendor.conf error: " ++ err ++
          ", go.mod error: " ++ err2)) :=
  ⟨fun _ _ => rfl, fun _ _ => rfl, fun _ _ => rfl⟩

/-- The per-dependency relation established by `renameDependencies`:
everything but the name is framed, the name is rewritten to the matching
rename entry's New value exactly when some entry's Old value equals the
dependency's name. -/
def renameRel (renames : List (String × projectRename)) (d d2 : dependency) : Prop :=
  d2.Commit = d.Commit ∧ d2.CloneURL = d.CloneURL ∧ d2.Previous = d.Previous ∧
  ((∀ e ∈ renames, e.2.Old ≠ d.Name) → d2 = d) ∧
  ((∃ e ∈ renames, e.2.Old = d.Name) →
    ∃ e ∈ renames, e.2.Old = d.Name ∧ d2.Name = e.2.New)

/-- Claim C7 (confirmed): `renameDependencies` keeps the list length and
order, frames Commit, CloneURL and Previous of every dependency, leaves
dependencies whose name matches no rename entry untouched, renames exactly
those whose name equals some entry's Old value to that entry's New value,
and is the identity on an empty rename table. -/
theorem renameDependencies_frame (deps : List dependency)
    (renames : List (String × projectRename)) :
    (renameDependencies deps renames).length = deps.length ∧
    List.Forall₂ (renameRel renames) deps (renameDependencies deps renames) ∧
    (renames = [] → renameDependencies deps renames = deps) := by
  have hrel : List.Forall₂ (renameRel renames) deps (renameDependencies deps renames) := by
    unfold renameDependencies
    by_cases hre : renames.isEmpty
    · rw [if_pos hre]
      have hre2 : renames = [] := List.isEmpty_iff.mp hre
      subst hre2
      induction deps with
      | nil => exact List.Forall₂.nil
      | cons d l ih =>
        refine List.Forall₂.cons ?_ ih
        exact ⟨rfl, rfl, rfl, fun _ => rfl, fun h => by simp at h⟩
    · rw [if_neg hre]
      induction deps with
      | nil => exact List.Forall₂.nil
      | cons d l ih =>
        rw [List.map_cons]
        refine List.Forall₂.cons ?_ ih
        cases hb : buildRenameMap renames d.Name with
        | none =>
          dsimp only [hb]
          rw [buildRenameMap_eq_lww] at hb
          have hnone := (lww_eq_none_iff (fun e => e.2.Old)
            (fun e => (e.1, e.2.New)) d.Name renames).mp hb
          exact ⟨rfl, rfl, rfl, fun _ => rfl,
            fun ⟨e, he, hek⟩ => absurd hek (hnone e he)⟩
        | some u =>
          dsimp only [hb]
          rw [buildRenameMap_eq_lww] at hb
          obtain ⟨e, he, hek, hv⟩ := lww_eq_some (fun e => e.2.Old)
            (fun e => (e.1, e.2.New)) d.Name renames u hb
          refine ⟨rfl, rfl, rfl, fun hno => absurd hek (hno e he), fun _ => ⟨e, he, hek, ?_⟩⟩
          rw [hv]
  refine ⟨hrel.length_eq.symm, hrel, fun hre => ?_⟩
  subst hre
  unfold renameDependencies
  rfl

/-- Witness for C7 at the spec example: the rename table
`{shortname: {Old: old/pkg, New: new/pkg}}` renames `{Name: old/pkg}` to
`new/pkg`, and the empty table is a no-op. -/
theorem renameDependencies_frame_witness :
    renameDependencies [⟨"old/pkg", "c1", "git://old/pkg", ""⟩]
        [("shortname", ⟨"old/pkg", "new/pkg"⟩)] =
      [⟨"new/pkg", "c1", "git://old/pkg", ""⟩] ∧
    renameDependencies [⟨"old/pkg", "c1", "git://old/pkg", ""⟩] [] =
      [⟨"old/pkg", "c1", "git://old/pkg", ""⟩] :=
  ⟨by decide,
    (renameDependencies_frame [⟨"old/pkg", "c1", "git://old/pkg", ""⟩] []).2.2 rfl⟩

theorem parseChangelogLines_some (lines : List String)
    (h : ∀ l ∈ lines, goFields l ≠ []) :
    ∃ cs, parseChangelogLines lines = some cs ∧
      List.Forall₂ (fun l c => ∃ f0 fs, goFields l = f0 :: fs ∧
        c.Commit = f0 ∧ c.Description = String.intercalate " " fs) lines cs := by
  induction lines with
  | nil => exact ⟨[], rfl, List.Forall₂.nil⟩
  | cons l rest ih =>
    obtain ⟨cs, hcs, hrel⟩ := ih fun x hx => h x (List.mem_cons_of_mem _ hx)
    cases hf : goFields l with
    | nil => exact absurd hf (h l (List.mem_cons_self _ _))
    | cons f0 fs =>
      refine ⟨⟨f0, String.intercalate " " fs⟩ :: cs, ?_, ?_⟩
      · unfold parseChangelogLines
        rw [hf, hcs]
        rfl
      · exact List.Forall₂.cons ⟨f0, fs, hf, rfl, rfl⟩ hrel

theorem parseChangelogLines_zero_field (lines : List String)
    (h : ∃ l ∈ lines, goFields l = []) :
    parseChangelogLines lines = none := by
  induction lines with
  | nil => simp at h
  | cons l rest ih =>
    obtain ⟨x, hx, hfx⟩ := h
    rcases List.mem_cons.mp hx with rfl | hx2
    · unfold parseChangelogLines
      rw [hfx]
    · unfold parseChangelogLines
      cases hf : goFields l with
      | nil => rfl
      | cons f0 fs =>
        rw [ih ⟨x, hx2, hfx⟩]
        rfl

/-- Claim C10 (corrected): when every scanner line of the raw log has at
least one whitespace-delimited field, `parseChangelog` yields one change
per line, with Commit the first field and Description the remaining
fields rejoined by single spaces; any line with zero fields (an empty or
whitespace-only line) makes the guard branch fire that models the Go
`fields[0]` index-out-of-range panic, so no silently mis-parsed result is
ever produced; the spec example parses to its two expected changes. -/
theorem parseChangelog_per_line :
    (∀ s : String, (∀ l ∈ linesOf s, goFields l ≠ []) →
      ∃ cs, parseChangelog s = some cs ∧
        List.Forall₂ (fun l c => ∃ f0 fs, goFields l = f0 :: fs ∧
          c.Commit = f0 ∧ c.Description = String.intercalate " " fs) (linesOf s) cs) ∧
    (∀ s : String, (∃ l ∈ linesOf s, goFields l = []) → parseChangelog s = none) ∧
    parseChangelog "abc123 Fix bug\ndef456 Add feature" =
      some [⟨"abc123", "Fix bug"⟩, ⟨"def456", "Add feature"⟩] :=
  ⟨fun s h => parseChangelogLines_some (linesOf s) h,
   fun s h => parseChangelogLines_zero_field (linesOf s) h,
   by decide⟩

/-- Witness for C10 at the spec example input. -/
theorem parseChangelog_per_line_witness :
    ∃ cs, parseChangelog "abc123 Fix bug\ndef456 Add feature" = some cs ∧
      List.Forall₂ (fun l c => ∃ f0 fs, goFields l = f0 :: fs ∧
        c.Commit = f0 ∧ c.Description = String.intercalate " " fs)
        (linesOf "abc123 Fix bug\ndef456 Add feature") cs :=
  parseChangelog_per_line.1 "abc123 Fix bug\ndef456 Add feature" (by decide)

/-- Counterexample for C10 as frozen: the input below ends in a
whitespace-only line, so every scanner line is a non-empty string, yet the
parse hits the zero-field guard (the Go code panics on `fields[0]`)
instead of returning one change per line. -/
theorem parseChangelog_blank_line_counterexample :
    linesOf "abc123 Fix bug\n " = ["abc123 Fix bug", " "] ∧
    (∀ l ∈ linesOf "abc123 Fix bug\n ", l ≠ "") ∧
    parseChangelog "abc123 Fix bug\n " = none := by
  refine ⟨by decide, ?_, by decide⟩
  intro l hl
  fin_cases hl <;> decide

/-- A line the go.mod scan skips while looking for the `require (`
marker: it sanitizes to nothing, or to exactly two fields other than the
marker tokens themselves. -/
def goModPreIgnorable (l : String) : Prop :=
  sanitizeLine l "//" = "" ∨
    ((goFields (sanitizeLine l "//")).length = 2 ∧
      goFields (sanitizeLine l "//") ≠ ["require", "("])

theorem goFields_nil_of_empty : goFields "" = [] := rfl

theorem parseGoModLines_step_skip (l : String) (rest : List String)
    (h : goModPreIgnorable l) :
    parseGoModLines false (l :: rest) = parseGoModLines false rest := by
  conv_lhs => unfold parseGoModLines
  dsimp only
  rcases h with he | ⟨hlen, hne⟩
  · rw [if_pos he]
  · have hnz : sanitizeLine l "//" ≠ "" := by
      intro h0
      rw [h0, goFields_nil_of_empty] at hlen
      exact absurd hlen (by decide)
    rw [if_neg hnz]
    obtain ⟨p0, p1, hf⟩ := List.length_eq_two.mp hlen
    rw [hf]
    dsimp only
    have hcond : ¬ (p0 = "require" ∧ p1 = "(") := by
      rintro ⟨rfl, rfl⟩
      rw [hf] at hne
      exact hne rfl
    rw [if_pos (show (!false) = true from rfl), if_neg hcond]

theorem parseGoModLines_skip (rest : List String) :
    ∀ pre : List String, (∀ l ∈ pre, goModPreIgnorable l) →
      parseGoModLines false (pre ++ rest) = parseGoModLines false rest := by
  intro pre
  induction pre with
  | nil => intro _; rfl
  | cons l pre ih =>
    intro h
    rw [List.cons_append,
      parseGoModLines_step_skip l (pre ++ rest) (h l (List.mem_cons_self _ _))]
    exact ih fun x hx => h x (List.mem_cons_of_mem _ hx)

theorem parseGoModLines_close (rest : List String) :
    parseGoModLines false (")" :: rest) = .ok [] := rfl

theorem parseGoModLines_one_field (l : String) (rest : List String) (p0 : String)
    (hf : goFields (sanitizeLine l "//") = [p0]) (hne : p0 ≠ ")") :
    parseGoModLines false (l :: rest) =
      .error ("invalid config format: " ++ sanitizeLine l "//") := by
  have hnz : sanitizeLine l "//" ≠ "" := by
    intro h0
    rw [h0, goFields_nil_of_empty] at hf
    exact absurd hf (by simp)
  conv_lhs => unfold parseGoModLines
  dsimp only
  rw [if_neg hnz, hf]
  dsimp only
  rw [if_neg hne]

theorem parseGoModLines_many_fields (l : String) (rest : List String)
    (a b c : String) (t : List String)
    (hf : goFields (sanitizeLine l "//") = a :: b :: c :: t) :
    parseGoModLines false (l :: rest) =
      .error ("invalid config format: " ++ sanitizeLine l "//") := by
  have hnz : sanitizeLine l "//" ≠ "" := by
    intro h0
    rw [h0, goFields_nil_of_empty] at hf
    exact absurd hf (by simp)
  conv_lhs => unfold parseGoModLines
  dsimp only
  rw [if_neg hnz, hf]

/-- Counterexample for C2 as frozen: the three-field line `a b c` sits
before the `require (` marker, yet it makes the go.mod parse fail instead
of being ignored (the same manifest without it parses fine). -/
theorem parseGoMod_pre_marker_counterexample :
    parseGoModDependencies ["a b c", "require (", "foo v1.0.0", ")"] =
      .error ("invalid config format: a b c") ∧
    parseGoModDependencies ["require (", "foo v1.0.0", ")"] =
      .ok [⟨"foo", "v1.0.0", "git://foo", ""⟩] :=
  ⟨rfl, rfl⟩

/-- Claim C2 (corrected): before the `require (` marker the go.mod scan
ignores exactly the lines that sanitize to nothing or to two fields other
than the marker; a pre-marker line sanitizing to the single token `)`
stops the scan successfully with no dependencies, and a pre-marker line
with any other field count (one field other than `)` or three or more
fields) is a fatal `invalid config format` error. -/
theorem parseGoMod_pre_marker (pre rest : List String)
    (hpre : ∀ l ∈ pre, goModPreIgnorable l) :
    parseGoModDependencies (pre ++ rest) = parseGoModDependencies rest ∧
    parseGoModDependencies (pre ++ ")" :: rest) = .ok [] ∧
    (∀ l p0, goFields (sanitizeLine l "//") = [p0] → p0 ≠ ")" →
      parseGoModDependencies (pre ++ l :: rest) =
        .error ("invalid config format: " ++ sanitizeLine l "//")) ∧
    (∀ l a b c t, goFields (sanitizeLine l "//") = a :: b :: c :: t →
      parseGoModDependencies (pre ++ l :: rest) =
        .error ("invalid config format: " ++ sanitizeLine l "//")) := by
  refine ⟨parseGoModLines_skip rest pre hpre, ?_, ?_, ?_⟩
  · show parseGoModLines false (pre ++ ")" :: rest) = _
    rw [parseGoModLines_skip (")" :: rest) pre hpre]
    exact parseGoModLines_close rest
  · intro l p0 hf hne
    show parseGoModLines false (pre ++ l :: rest) = _
    rw [parseGoModLines_skip (l :: rest) pre hpre]
    exact parseGoModLines_one_field l rest p0 hf hne
  · intro l a b c t hf
    show parseGoModLines false (pre ++ l :: rest) = _
    rw [parseGoModLines_skip (l :: rest) pre hpre]
    exact parseGoModLines_many_fields l rest a b c t hf

/-- Witness for C2: a module header and a comment line are ignored before
the marker, and a stray one-field or three-field pre-marker line is
fatal. -/
theorem parseGoMod_pre_marker_witness :
    parseGoModDependencies (["module example.com/m", "// a comment"] ++
        ["require (", "foo v1.0.0", ")"]) =
      parseGoModDependencies ["require (", "foo v1.0.0", ")"] ∧
    parseGoModDependencies (["module example.com/m", "// a comment"] ++
        "x y z" :: ["require (", "foo v1.0.0", ")"]) =
      .error ("invalid config format: " ++ sanitizeLine "x y z" "//") := by
  have h := parseGoMod_pre_marker ["module example.com/m", "// a comment"]
    ["require (", "foo v1.0.0", ")"] (by
      intro l hl
      fin_cases hl
      · exact Or.inr ⟨by decide, by decide⟩
      · exact Or.inl (by decide))
  exact ⟨h.1, h.2.2.2 "x y z" "x" "y" "z" [] (by decide)⟩

theorem hasHexRun40_iff (l : List Char) :
    hasHexRun40 l = true ↔
      ∃ pre mid suf, l = pre ++ mid ++ suf ∧ mid.length = 40 ∧ mid.all isHexLower = true := by
  constructor
  · intro h
    induction l with
    | nil => simp [hasHexRun40] at h
    | cons c rest ih =>
      rcases Bool.or_eq_true_iff.mp h with hs | hr
      · refine ⟨[], (c :: rest).take 40, (c :: rest).drop 40, ?_, ?_, ?_⟩
        · rw [List.nil_append, List.take_append_drop]
        · exact of_decide_eq_true (Bool.and_eq_true_iff.mp hs).1
        · exact (Bool.and_eq_true_iff.mp hs).2
      · obtain ⟨pre, mid, suf, heq, hlen, hhex⟩ := ih hr
        exact ⟨c :: pre, mid, suf, by rw [heq]; rfl, hlen, hhex⟩
  · rintro ⟨pre, mid, suf, rfl, hlen, hhex⟩
    induction pre with
    | nil =>
      rw [List.nil_append]
      have htake : (mid ++ suf).take 40 = mid := by
        rw [← hlen]; exact List.take_left mid suf
      have hstarts : hexRunStarts (mid ++ suf) = true := by
        unfold hexRunStarts
        rw [htake, hlen, hhex]
        simp
      cases mid with
      | nil => simp at hlen
      | cons m mt =>
        show hasHexRun40 (m :: (mt ++ suf)) = true
        unfold hasHexRun40
        rw [Bool.or_eq_true_iff]
        exact Or.inl hstarts
    | cons p pt ih =>
      show hasHexRun40 (p :: (pt ++ mid ++ suf)) = true
      unfold hasHexRun40
      rw [Bool.or_eq_true_iff]
      exact Or.inr ih

/-- Claim C3 (corrected): for every well-formed Format-A (vendor.conf)
line, the parsed Commit is the first 12 characters of the commit field
exactly when the field CONTAINS a run of 40 consecutive lowercase-hex
characters (the regular expression `[0-9a-f]{40}` is unanchored), and is
the field verbatim otherwise; a field that is exactly a 40-hex string
contains such a run, so it is truncated, but so is, for example, a
41-character one. -/
theorem parseVendorConf_truncate_iff :
    (∀ (l : String) (lines : List String) (name commit : String),
      goFields (sanitizeLine l "#") = [name, commit] →
      parseVendorConfDependencies (l :: lines) =
        (parseVendorConfDependencies lines).map
          ((⟨name, if hasHexRun40 commit.data then (commit.data.take 12).asString else commit,
            "git://" ++ name, ""⟩ : dependency) :: ·)) ∧
    (∀ (l : String) (lines : List String) (name commit u : String),
      goFields (sanitizeLine l "#") = [name, commit, u] →
      parseVendorConfDependencies (l :: lines) =
        (parseVendorConfDependencies lines).map
          ((⟨name, if hasHexRun40 commit.data then (commit.data.take 12).asString else commit,
            u, ""⟩ : dependency) :: ·)) ∧
    (∀ commitField : String, hasHexRun40 commitField.data = true ↔
      ∃ pre mid suf, commitField.data = pre ++ mid ++ suf ∧
        mid.length = 40 ∧ mid.all isHexLower = true) := by
  refine ⟨?_, ?_, fun cf => hasHexRun40_iff cf.data⟩
  · intro l lines name commit hf
    have hnz : sanitizeLine l "#" ≠ "" := by
      intro h0
      rw [h0] at hf
      exact absurd hf (by simp [goFields, goFieldsChars, goFieldsAux])
    show parseVendorConfLines (l :: lines) = _
    conv_lhs => unfold parseVendorConfLines
    dsimp only
    rw [if_neg hnz, hf]
    rfl
  · intro l lines name commit u hf
    have hnz : sanitizeLine l "#" ≠ "" := by
      intro h0
      rw [h0] at hf
      exact absurd hf (by simp [goFields, goFieldsChars, goFieldsAux])
    show parseVendorConfLines (l :: lines) = _
    conv_lhs => unfold parseVendorConfLines
    dsimp only
    rw [if_neg hnz, hf]
    rfl

/-- Witness for C3: a full 40-hex commit field is truncated to its first
12 characters, and a non-hex version field is preserved verbatim. -/
theorem parseVendorConf_truncate_iff_witness :
    parseVendorConfDependencies ["foo aaaaaaaaaaaaaaaaaaaaaaaaaaaaaaaaaaaaaaaa"] =
      .ok [⟨"foo", "aaaaaaaaaaaa", "git://foo", ""⟩] ∧
    parseVendorConfDependencies ["bar v1.2.3"] =
      .ok [⟨"bar", "v1.2.3", "git://bar", ""⟩] :=
  ⟨(parseVendorConf_truncate_iff.1 "foo aaaaaaaaaaaaaaaaaaaaaaaaaaaaaaaaaaaaaaaa"
      [] "foo" "aaaaaaaaaaaaaaaaaaaaaaaaaaaaaaaaaaaaaaaa" (by decide)).trans rfl,
   (parseVendorConf_truncate_iff.1 "bar v1.2.3" [] "bar" "v1.2.3" (by decide)).trans rfl⟩

/-- Counterexample for C3 as frozen: a 41-character hex commit field is
not a 40-character hex string, yet the parse truncates it to 12
characters instead of preserving it verbatim (the regular expression is
matched unanchored). -/
theorem parseVendorConf_truncate_counterexample :
    parseVendorConfDependencies ["foo aaaaaaaaaaaaaaaaaaaaaaaaaaaaaaaaaaaaaaaaa"] =
      .ok [⟨"foo", "aaaaaaaaaaaa", "git://foo", ""⟩] ∧
    ("aaaaaaaaaaaaaaaaaaaaaaaaaaaaaaaaaaaaaaaaa" : String).length = 41 ∧
    ("aaaaaaaaaaaa" : String) ≠ "aaaaaaaaaaaaaaaaaaaaaaaaaaaaaaaaaaaaaaaaa" :=
  ⟨rfl, by decide, by decide⟩

/-- Claim C4 (corrected): a version splitting into exactly 3 dash-fields
parses to the 3rd field; with 1 or 2 dash-fields the version is kept, but
`+incompatible` is cut from its first occurrence onward whenever that
occurrence is at a positive index — even when it is not a suffix — while
an occurrence at index 0 is kept; any other dash-field count makes the
go.mod parse fail with a fatal error naming the offending version. -/
theorem getCommitOrVersion_cases :
    (∀ cov f1 f2 f3 : String, dashFields cov = [f1, f2, f3] →
      getCommitOrVersion cov = f3) ∧
    (∀ cov : String, (dashFields cov).length = 1 ∨ (dashFields cov).length = 2 →
      (goIndexOf "+incompatible".data cov.data = none → getCommitOrVersion cov = cov) ∧
      (goIndexOf "+incompatible".data cov.data = some 0 → getCommitOrVersion cov = cov) ∧
      (∀ i, goIndexOf "+incompatible".data cov.data = some i → 0 < i →
        getCommitOrVersion cov = (cov.data.take i).asString)) ∧
    (∀ cov : String, (dashFields cov).length ≠ 1 → (dashFields cov).length ≠ 2 →
      (dashFields cov).length ≠ 3 → getCommitOrVersion cov = "") ∧
    (∀ (l : String) (lines : List String) (n v : String),
      goFields (sanitizeLine l "//") = [n, v] → getCommitOrVersion v = "" →
      parseGoModDependencies ("require (" :: l :: lines) =
        .error ("invalid go.mod file, poorly formatted version in requires section " ++ v)) := by
  refine ⟨?_, ?_, ?_, ?_⟩
  · intro cov f1 f2 f3 h
    unfold getCommitOrVersion
    rw [h]
    norm_num
  · intro cov h12
    unfold getCommitOrVersion
    rw [if_pos h12]
    refine ⟨fun h => by rw [h], fun h => by rw [h]; dsimp only; rw [if_neg (lt_irrefl 0)],
      fun i h hi => by rw [h]; dsimp only; rw [if_pos hi]⟩
  · intro cov h1 h2 h3
    unfold getCommitOrVersion
    rw [if_neg (by rintro (h | h) <;> [exact h1 h; exact h2 h]), if_neg h3]
  · intro l lines n v hf hcv
    have hstep : parseGoModLines false ("require (" :: l :: lines) =
        parseGoModLines true (l :: lines) := rfl
    show parseGoModLines false ("require (" :: l :: lines) = _
    rw [hstep]
    have hnz : sanitizeLine l "//" ≠ "" := by
      intro h0
      rw [h0, goFields_nil_of_empty] at hf
      exact absurd hf (by simp)
    conv_lhs => unfold parseGoModLines
    dsimp only
    rw [if_neg hnz, hf]
    dsimp only
    rw [if_neg (show ¬ ((!true) = true) by decide), hcv, if_pos rfl]

/-- Witness for C4: a pseudo-version takes its commit field, a plain
`+incompatible` version is trimmed at the suffix, and a malformed
four-dash-field version aborts the go.mod parse naming it. -/
theorem getCommitOrVersion_cases_witness :
    getCommitOrVersion "v0.0.0-20190101-abc123def456" = "abc123def456" ∧
    getCommitOrVersion "v2.0.0+incompatible" = "v2.0.0" ∧
    parseGoModDependencies ["require (", "foo a-b-c-d"] =
      .error ("invalid go.mod file, poorly formatted version in requires section " ++
        "a-b-c-d") :=
  ⟨getCommitOrVersion_cases.1 "v0.0.0-20190101-abc123def456"
      "v0.0.0" "20190101" "abc123def456" (by decide),
   ((getCommitOrVersion_cases.2.1 "v2.0.0+incompatible"
      (Or.inl (by decide))).2.2 6 (by decide) (by decide)).trans rfl,
   getCommitOrVersion_cases.2.2.2 "foo a-b-c-d" [] "foo" "a-b-c-d"
      (by decide) rfl⟩

/-- Counterexample for C4 as frozen: `v1+incompatible-x` splits into two
dash-fields and carries no `+incompatible` suffix (its last 13 characters
are not `+incompatible`), so per the claim it should parse to itself; the
code instead cuts at the first interior occurrence and yields `v1`. -/
theorem getCommitOrVersion_counterexample :
    (dashFields "v1+incompatible-x").length = 2 ∧
    "v1+incompatible-x".data.drop
        ("v1+incompatible-x".data.length - "+incompatible".data.length) ≠
      "+incompatible".data ∧
    getCommitOrVersion "v1+incompatible-x" = "v1" ∧
    ("v1" : String) ≠ "v1+incompatible-x" := by
  refine ⟨by decide, by decide, rfl, by decide⟩

theorem takeWhile_append_all {α : Type} (p : α → Bool) (ds l : List α)
    (h : ds.all p = true) :
    (ds ++ l).takeWhile p = ds ++ l.takeWhile p := by
  induction ds with
  | nil => rfl
  | cons a t ih =>
    rw [List.all_cons, Bool.and_eq_true_iff] at h
    obtain ⟨ha, ht⟩ := h
    rw [List.cons_append, List.takeWhile_cons, if_pos ha, ih ht]
    rfl

theorem dropWhile_append_all {α : Type} (p : α → Bool) (ds l : List α)
    (h : ds.all p = true) :
    (ds ++ l).dropWhile p = l.dropWhile p := by
  induction ds with
  | nil => rfl
  | cons a t ih =>
    rw [List.all_cons, Bool.and_eq_true_iff] at h
    obtain ⟨ha, ht⟩ := h
    rw [List.cons_append, List.dropWhile_cons, if_pos ha, ih ht]

theorem dropWhile_eq_self_of_takeWhile_nil {α : Type} (p : α → Bool) (l : List α)
    (h : l.takeWhile p = []) : l.dropWhile p = l := by
  cases l with
  | nil => rfl
  | cons a t =>
    rw [List.takeWhile_cons] at h
    by_cases ha : p a = true
    · rw [if_pos ha] at h; exact absurd h (by simp)
    · rw [List.dropWhile_cons, if_neg ha]

theorem goIndexOf_single_append (c : Char) (l1 l2 : List Char) :
    ∀ i, goIndexOf [c] l1 = some i → goIndexOf [c] (l1 ++ l2) = some i := by
  induction l1 with
  | nil => intro i h; simp [goIndexOf] at h
  | cons a rest ih =>
    intro i h
    rw [List.cons_append]
    unfold goIndexOf at h ⊢
    by_cases hca : [c].isPrefixOf (a :: rest) = true
    · have hca2 : [c].isPrefixOf (a :: (rest ++ l2)) = true := by
        simp [List.isPrefixOf] at hca ⊢
        exact hca
      rw [if_pos hca] at h
      rw [if_pos hca2]
      exact h
    · have hca2 : ¬ ([c].isPrefixOf (a :: (rest ++ l2)) = true) := by
        simp [List.isPrefixOf] at hca ⊢
        exact hca
      rw [if_neg hca] at h
      rw [if_neg hca2]
      cases hr : goIndexOf [c] rest with
      | none => rw [hr] at h; exact absurd h (by simp)
      | some j =>
        rw [hr] at h
        rw [ih j hr]
        exact h

theorem goIndexOf_hash_prHead (tail : List Char) :
    goIndexOf ['#'] (prHeadChars ++ tail) = some 19 :=
  goIndexOf_single_append '#' prHeadChars tail 19 (by decide)

theorem take19_prHead_append (ds : List Char) :
    (prHeadChars ++ ds).take 19 = "Merge pull request ".data := by
  rw [show prHeadChars = "Merge pull request ".data ++ ['#'] from rfl, List.append_assoc,
    show 19 = ("Merge pull request ".data).length from rfl, List.take_left]

theorem drop20_prHead_append (ds : List Char) :
    (prHeadChars ++ ds).drop 20 = ds := by
  rw [show 20 = prHeadChars.length from rfl, List.drop_left]

theorem matchPRHead_append (ds rest : List Char) (hne : ds ≠ [])
    (hdig : ds.all Char.isDigit = true) (hrest : rest.takeWhile Char.isDigit = []) :
    matchPRHead (prHeadChars ++ ds ++ rest) = some (prHeadChars ++ ds, rest) := by
  unfold matchPRHead
  rw [List.append_assoc]
  have htake : (prHeadChars ++ (ds ++ rest)).take 20 = prHeadChars := by
    rw [show 20 = prHeadChars.length from rfl, List.take_left]
  have hdrop : (prHeadChars ++ (ds ++ rest)).drop 20 = ds ++ rest := by
    rw [show 20 = prHeadChars.length from rfl, List.drop_left]
  rw [htake, if_pos rfl]
  dsimp only
  rw [hdrop, takeWhile_append_all Char.isDigit ds rest hdig, hrest, List.append_nil,
    dropWhile_append_all Char.isDigit ds rest hdig,
    dropWhile_eq_self_of_takeWhile_nil Char.isDigit rest hrest]
  rw [if_neg (by simpa using hne)]

/-- Claim C1 (corrected): on a description matching
`^Merge pull request #<digits>`, the rewriter keeps all text before the
`#` and rewrites the numeric reference as a markdown link, but the
`Sprintf` format inserts one more space between the preserved prefix
(which already ends in a space) and the link, so `Merge pull request #42
from foo/bar` with repo `org/proj` becomes `Merge pull request
 [#42](https://github.com/org/proj/pull/42) from foo/bar` with two spaces
before `[#42]`; non-matching descriptions are returned unchanged. -/
theorem githubPRLink_rewrite :
    (∀ (repo cmt : String) (ds rest : List Char), ds ≠ [] →
      ds.all Char.isDigit = true → rest.takeWhile Char.isDigit = [] →
      githubPRLink repo ⟨cmt, (prHeadChars ++ ds ++ rest).asString⟩ =
        "Merge pull request " ++ " [#" ++ ds.asString ++ "](" ++
          ("https://github.com/" ++ repo ++ "/pull/" ++ ds.asString) ++ ")" ++
          rest.asString) ∧
    (∀ (repo cmt desc : String), matchPRHead desc.data = none →
      githubPRLink repo ⟨cmt, desc⟩ = desc) := by
  constructor
  · intro repo cmt ds rest hne hdig hrest
    unfold githubPRLink
    dsimp only
    rw [show ((prHeadChars ++ ds ++ rest).asString).data = prHeadChars ++ ds ++ rest from rfl,
      matchPRHead_append ds rest hne hdig hrest]
    dsimp only
    rw [goIndexOf_hash_prHead ds]
    dsimp only
    rw [show (19 : Nat) + 1 = 20 from rfl, drop20_prHead_append ds, take19_prHead_append ds]
    rfl
  · intro repo cmt desc h
    unfold githubPRLink
    rw [h]

/-- Witness for C1 at the spec example, exhibiting the doubled space the
code actually produces. -/
theorem githubPRLink_rewrite_witness :
    githubPRLink "org/proj" ⟨"abc123", "Merge pull request #42 from foo/bar"⟩ =
      "Merge pull request  [#42](https://github.com/org/proj/pull/42) from foo/bar" ∧
    githubPRLink "org/proj" ⟨"abc123", "Fix bug"⟩ = "Fix bug" :=
  ⟨(githubPRLink_rewrite.1 "org/proj" "abc123" "42".data " from foo/bar".data
      (by decide) (by decide) (by decide)).trans rfl,
   githubPRLink_rewrite.2 "org/proj" "abc123" "Fix bug" (by decide)⟩

/-- Counterexample for C1 as frozen: at the spec example the rewriter does
not produce the claimed single-space output; it emits two spaces before
the link. -/
theorem githubPRLink_counterexample :
    githubPRLink "org/proj" ⟨"abc123", "Merge pull request #42 from foo/bar"⟩ ≠
      "Merge pull request [#42](https://github.com/org/proj/pull/42) from foo/bar" ∧
    githubPRLink "org/proj" ⟨"abc123", "Merge pull request #42 from foo/bar"⟩ =
      "Merge pull request  [#42](https://github.com/org/proj/pull/42) from foo/bar" := by
  exact ⟨by decide, by decide⟩

theorem goStrLt_cons_lt {x y : Char} (h : x < y) (xs ys : List Char) :
    goStrLt (x :: xs) (y :: ys) = true := by
  unfold goStrLt
  rw [if_pos h]

theorem goStrLt_cons_gt {x y : Char} (h : y < x) (xs ys : List Char) :
    goStrLt (x :: xs) (y :: ys) = false := by
  unfold goStrLt
  rw [if_neg (lt_asymm h), if_pos h]

theorem goStrLt_cons_eq (x : Char) (xs ys : List Char) :
    goStrLt (x :: xs) (x :: ys) = goStrLt xs ys := by
  conv_lhs => unfold goStrLt
  rw [if_neg (lt_irrefl x), if_neg (lt_irrefl x)]

theorem goStrLt_irr : ∀ l : List Char, goStrLt l l = false := by
  intro l
  induction l with
  | nil => rfl
  | cons x xs ih => rw [goStrLt_cons_eq]; exact ih

theorem goStrLt_trans : ∀ a b c : List Char,
    goStrLt a b = true → goStrLt b c = true → goStrLt a c = true := by
  intro a
  induction a with
  | nil =>
    intro b c h1 h2
    cases b with
    | nil => exact absurd h1 (by simp [goStrLt])
    | cons y ys =>
      cases c with
      | nil => exact absurd h2 (by simp [goStrLt])
      | cons z zs => rfl
  | cons x xs ih =>
    intro b c h1 h2
    cases b with
    | nil => exact absurd h1 (by simp [goStrLt])
    | cons y ys =>
      cases c with
      | nil => exact absurd h2 (by simp [goStrLt])
      | cons z zs =>
        rcases lt_trichotomy x y with hxy | rfl | hxy
        · rcases lt_trichotomy y z with hyz | rfl | hyz
          · exact goStrLt_cons_lt (lt_trans hxy hyz) xs zs
          · exact goStrLt_cons_lt hxy xs zs
          · rw [goStrLt_cons_gt hyz] at h2; exact absurd h2 (by simp)
        · rcases lt_trichotomy x z with hxz | rfl | hxz
          · exact goStrLt_cons_lt hxz xs zs
          · rw [goStrLt_cons_eq] at h1 h2 ⊢
            exact ih ys zs h1 h2
          · rw [goStrLt_cons_gt hxz] at h2; exact absurd h2 (by simp)
        · rw [goStrLt_cons_gt hxy] at h1; exact absurd h1 (by simp)

theorem goStrLt_conn : ∀ a b : List Char,
    goStrLt a b = false → goStrLt b a = false → a = b := by
  intro a
  induction a with
  | nil =>
    intro b h1 _
    cases b with
    | nil => rfl
    | cons y ys => exact absurd h1 (by simp [goStrLt])
  | cons x xs ih =>
    intro b h1 h2
    cases b with
    | nil => exact absurd h2 (by simp [goStrLt])
    | cons y ys =>
      rcases lt_trichotomy x y with hxy | rfl | hxy
      · rw [goStrLt_cons_lt hxy] at h1; exact absurd h1 (by simp)
      · rw [goStrLt_cons_eq] at h1 h2
        rw [ih ys h1 h2]
      · rw [goStrLt_cons_lt hxy] at h2; exact absurd h2 (by simp)

theorem goStrLt_asymm {a b : List Char} (h : goStrLt a b = true) :
    goStrLt b a = false := by
  cases hba : goStrLt b a with
  | false => rfl
  | true =>
    have := goStrLt_trans a b a h hba
    rw [goStrLt_irr a] at this
    exact absurd this (by simp)

theorem contribLess_asymm {a b : contribstat} (h : contribLess a b = true) :
    contribLess b a = false := by
  unfold contribLess at h ⊢
  by_cases hc : a.count = b.count
  · rw [if_pos hc] at h
    rw [if_pos hc.symm, goStrLt_asymm h]
  · rw [if_neg hc] at h
    rw [if_neg (fun hc2 => hc hc2.symm)]
    have hba := of_decide_eq_true h
    simpa using Nat.lt_asymm hba

theorem contribLess_le_trans {a b c : contribstat}
    (h1 : contribLess b a = false) (h2 : contribLess c b = false) :
    contribLess c a = false := by
  unfold contribLess at h1 h2 ⊢
  by_cases hba : b.count = a.count
  · rw [if_pos hba] at h1
    by_cases hcb : c.count = b.count
    · rw [if_pos hcb] at h2
      rw [if_pos (hcb.trans hba)]
      cases hbc2 : goStrLt b.name.data c.name.data with
      | false =>
        have := goStrLt_conn c.name.data b.name.data h2 hbc2
        rw [this]; exact h1
      | true =>
        cases hca : goStrLt c.name.data a.name.data with
        | false => rfl
        | true =>
          have := goStrLt_trans b.name.data c.name.data a.name.data hbc2 hca
          rw [this] at h1
          exact absurd h1 (by simp)
    · rw [if_neg hcb] at h2
      have hcb2 : c.count < b.count := by
        have := of_decide_eq_false h2
        omega
      rw [if_neg (by omega)]
      simp only [decide_eq_false_iff_not]
      omega
  · rw [if_neg hba] at h1
    have hba2 : b.count < a.count := by
      have := of_decide_eq_false h1
      omega
    by_cases hcb : c.count = b.count
    · rw [if_neg (by omega)]
      simp only [decide_eq_false_iff_not]
      omega
    · rw [if_neg hcb] at h2
      have hcb2 : c.count < b.count := by
        have := of_decide_eq_false h2
        omega
      rw [if_neg (by omega)]
      simp only [decide_eq_false_iff_not]
      omega

theorem mem_insertLe {α : Type} (le : α → α → Bool) (a x : α) :
    ∀ l : List α, x ∈ insertLe le a l ↔ x = a ∨ x ∈ l := by
  intro l
  induction l with
  | nil => simp [insertLe]
  | cons b t ih =>
    unfold insertLe
    by_cases hab : le a b = true
    · rw [if_pos hab]
      simp [or_comm, or_assoc, or_left_comm]
    · rw [if_neg hab]
      simp only [List.mem_cons, ih]
      tauto

theorem perm_insertLe {α : Type} (le : α → α → Bool) (a : α) :
    ∀ l : List α, (insertLe le a l).Perm (a :: l) := by
  intro l
  induction l with
  | nil => exact List.Perm.refl _
  | cons b t ih =>
    unfold insertLe
    by_cases hab : le a b = true
    · rw [if_pos hab]
    · rw [if_neg hab]
      exact (List.Perm.cons b ih).trans (List.Perm.swap a b t)

theorem perm_sortLe {α : Type} (le : α → α → Bool) :
    ∀ l : List α, (sortLe le l).Perm l := by
  intro l
  induction l with
  | nil => exact List.Perm.refl _
  | cons a t ih =>
    exact (perm_insertLe le a (sortLe le t)).trans (List.Perm.cons a ih)

theorem pairwise_insertLe {α : Type} (le : α → α → Bool)
    (htrans : ∀ a b c, le a b = true → le b c = true → le a c = true)
    (htot : ∀ a b, le a b = false → le b a = true) (a : α) :
    ∀ l : List α, l.Pairwise (le · · = true) →
      (insertLe le a l).Pairwise (le · · = true) := by
  intro l
  induction l with
  | nil => intro _; simp [insertLe]
  | cons b t ih =>
    intro h
    obtain ⟨hb, ht⟩ := List.pairwise_cons.mp h
    unfold insertLe
    by_cases hab : le a b = true
    · rw [if_pos hab]
      refine List.pairwise_cons.mpr ⟨?_, h⟩
      intro x hx
      rcases List.mem_cons.mp hx with rfl | hx2
      · exact hab
      · exact htrans a b x hab (hb x hx2)
    · rw [if_neg hab]
      refine List.pairwise_cons.mpr ⟨?_, ih ht⟩
      intro x hx
      rcases (mem_insertLe le a x t).mp hx with hx1 | hx2
      · rw [hx1]
        exact htot a b (Bool.eq_false_iff.mpr hab)
      · exact hb x hx2

theorem pairwise_sortLe {α : Type} (le : α → α → Bool)
    (htrans : ∀ a b c, le a b = true → le b c = true → le a c = true)
    (htot : ∀ a b, le a b = false → le b a = true) :
    ∀ l : List α, (sortLe le l).Pairwise (le · · = true) := by
  intro l
  induction l with
  | nil => exact List.Pairwise.nil
  | cons a t ih => exact pairwise_insertLe le htrans htot a (sortLe le t) ih

/-- Claim C8 (confirmed): `orderContributors` returns the names of the
tally entries arranged so that no later entry sorts strictly before an
earlier one under the `sort.Slice` comparator — descending commit count,
ties broken by ascending lexicographic name — with exactly one output
name per tally entry; the spec example with counts A:3, B:3, C:1 yields
[A, B, C]. -/
theorem orderContributors_ranking :
    (∀ m : List (contributor × Nat),
      ∃ all : List contribstat,
        all.Perm (m.map fun e => contribstat.mk e.1.name e.1.email e.2) ∧
        all.Pairwise (fun a b => contribLess b a = false) ∧
        orderContributors m = all.map contribstat.name ∧
        (orderContributors m).length = m.length) ∧
    orderContributors [(⟨"A", "a@x"⟩, 3), (⟨"B", "b@x"⟩, 3), (⟨"C", "c@x"⟩, 1)] =
      ["A", "B", "C"] := by
  constructor
  · intro m
    have htrans : ∀ a b c : contribstat, (!contribLess b a) = true →
        (!contribLess c b) = true → (!contribLess c a) = true := by
      intro a b c h1 h2
      rw [Bool.not_eq_true'] at h1 h2 ⊢
      exact contribLess_le_trans h1 h2
    have htot : ∀ a b : contribstat, (!contribLess b a) = false →
        (!contribLess a b) = true := by
      intro a b h
      rw [Bool.not_eq_false'] at h
      rw [Bool.not_eq_true']
      exact contribLess_asymm h
    refine ⟨sortLe (fun a b => !contribLess b a)
      (m.map fun e => contribstat.mk e.1.name e.1.email e.2), ?_, ?_, ?_, ?_⟩
    · exact perm_sortLe _ _
    · have hp := pairwise_sortLe (fun a b => !contribLess b a) htrans htot
        (m.map fun e => contribstat.mk e.1.name e.1.email e.2)
      exact hp.imp fun {a b} h => by rwa [Bool.not_eq_true'] at h
    · rfl
    · show ((sortLe (fun a b => !contribLess b a)
          (m.map fun e => contribstat.mk e.1.name e.1.email e.2)).map contribstat.name).length =
        m.length
      rw [List.length_map, (perm_sortLe _ _).length_eq, List.length_map]
  · decide

end ReleaseTool
